import Mathlib

set_option maxRecDepth 100000

/-!
Verification of `src/tools/function_traits_permute.py` (macro-table emitter)
and `src/scripts/py/linked_list.py` (singly linked list demo) from rune-rs/rune.

The emitter is embedded as pure Lean functions mirroring the Python script:
the three parameter-mode lambdas `Owned`, `Ref`, `Mut`, the fixed slot
alphabet `vars = [A, B, C, D, E]`, the nested loop
`for repeat in range(0, len(vars) + 1): for perm in itertools.product([Owned, Ref, Mut], repeat=repeat)`,
the slot-group rendering with `enumerate(zip(vars, perm))`, the
`repeat >= 4` conditional-compilation guard, and the surrounding header and
footer lines written with `pr`.
-/

/-- The three parameter-passing modes of the emitter, in the order they are
listed in `itertools.product([Owned, Ref, Mut], repeat=repeat)`. -/
inductive Mode where
  | Owned
  | Ref
  | Mut
deriving DecidableEq

/-- The quadruple returned by each mode lambda in the Python source:
`(ty, mods, traits, coercion)`. -/
structure ModeOut where
  ty : String
  mods : String
  traits : List String
  coercion : String
deriving DecidableEq

/-- Source lambdas: `Owned = lambda var: (var, "", ["FromValue"], "from_value")` and the two
reference lambdas, as one tagged application function. -/
def Mode.apply : Mode → String → ModeOut
  | .Owned, v => ⟨v, "", ["FromValue"], "from_value"⟩
  | .Mut, v => ⟨"Mut<" ++ v ++ ">", "&mut", ["?Sized", "UnsafeToMut"], "unsafe_to_mut"⟩
  | .Ref, v => ⟨"Ref<" ++ v ++ ">", "&", ["?Sized", "UnsafeToRef"], "unsafe_to_ref"⟩

/-- Source list `vars = ['A', 'B', 'C', 'D', 'E']` of the Python source. -/
def runeVars : List String := ["A", "B", "C", "D", "E"]

/-- Source pool `[Owned, Ref, Mut]`, the pool handed to `itertools.product`. -/
def runeModes : List Mode := [.Owned, .Ref, .Mut]

/-- Model of `itertools.product(modes, repeat=n)`: all length-`n` tuples over `modes`,
leftmost position varying slowest (most significant), exactly the order
`itertools.product` produces. -/
def modeProduct (modes : List Mode) : Nat → List (List Mode)
  | 0 => [[]]
  | n + 1 => modes.flatMap fun m => (modeProduct modes n).map fun p => m :: p

/-- The sequence of signatures `(repeat, perm)` visited by the nested loop
`for repeat in range(0, maxA + 1): for perm in itertools.product(modes, repeat=repeat)`. -/
def emitSigsWith (maxA : Nat) (modes : List Mode) : List (Nat × List Mode) :=
  (List.range (maxA + 1)).flatMap fun r => (modeProduct modes r).map fun p => (r, p)

/-- The signatures of the actual script: `maxA = len(vars) = 5`. -/
def runeSigs : List (Nat × List Mode) := emitSigsWith runeVars.length runeModes

/-- One rendered slot group, carrying the data interpolated into
`f"{{{var}, {var_lower}, {ty}, {n}, {{{mods}}}, {{{traits}}}, {coercion}}}"`.
`idx` is the value of `n` from `enumerate`. -/
structure SlotGroup where
  var : String
  varLower : String
  out : ModeOut
  idx : Nat
deriving DecidableEq

/-- Model of `str.lower()`: lower-case every character.  (Defined through
the character list so that it evaluates inside the kernel.) -/
def strLower (s : String) : String := ⟨s.data.map Char.toLower⟩

/-- The loop `for (n, (var, p)) in enumerate(zip(vars, perm))`, producing the
slot groups of one line. `zip` truncates to the shorter of the two lists. -/
def slotGroups (vars : List String) (perm : List Mode) : List SlotGroup :=
  (vars.zip perm).enum.map fun q => ⟨q.2.1, strLower q.2.1, q.2.2.apply q.2.1, q.1⟩

/-- The f-string rendering of one slot group; `traits` are joined by
`" + ".join(traits)`. Literal braces are written with escapes. -/
def SlotGroup.render (g : SlotGroup) : String :=
  "\x7b" ++ g.var ++ ", " ++ g.varLower ++ ", " ++ g.out.ty ++ ", " ++
    toString g.idx ++ ", \x7b" ++ g.out.mods ++ "\x7d, \x7b" ++
    String.intercalate " + " g.out.traits ++ "\x7d, " ++ g.out.coercion ++ "\x7d"

/-- The emitted call line: `line = [str(repeat)] + groups`, then
`pr(f"        $call!({args});")` with `args = ", ".join(line)`. -/
def callLine (vars : List String) (s : Nat × List Mode) : String :=
  "        $call!(" ++
    String.intercalate ", " (toString s.1 :: (slotGroups vars s.2).map SlotGroup.render) ++
    ");"

/-- The guard line the script writes when `repeat >= 4`. -/
def guardLine : String := "        #[cfg(not(test))]"

/-- The lines written for one signature: the guard when `repeat >= threshold`
(the script hard-codes 4), then the call line. -/
def emitOne (vars : List String) (threshold : Nat) (s : Nat × List Mode) : List String :=
  (if threshold ≤ s.1 then [guardLine] else []) ++ [callLine vars s]

/-- All lines written by the script, in order: header comment, macro opening,
one block per signature, closing lines. -/
def outputLines (vars : List String) (maxA threshold : Nat) (modes : List Mode) :
    List String :=
  ["// Note: Automatically generated using function_traits_permute.py",
   "macro_rules! permute \x7b",
   "    ($call:path) => \x7b"] ++
  (emitSigsWith maxA modes).flatMap (emitOne vars threshold) ++
  ["    \x7d", "\x7d"]

/-- The whole configuration of the emitter: slot names, maximum arity,
guard threshold, mode definitions. -/
structure Config where
  vars : List String
  maxA : Nat
  threshold : Nat
  modes : List Mode
deriving DecidableEq

/-- The script configuration: `vars = A..E`, `maxA = len(vars)`, threshold 4,
modes `[Owned, Ref, Mut]`. -/
def runeConfig : Config := ⟨runeVars, runeVars.length, 4, runeModes⟩

/-- The full byte content of the output file: each line followed by a
newline, as `pr` writes `text + "\n"`. -/
def fullOutput (c : Config) : String :=
  String.join ((outputLines c.vars c.maxA c.threshold c.modes).map (· ++ "\n"))

/-!
Embedding of `src/scripts/py/linked_list.py`.  Python nodes are heap
objects; the heap is modelled as an arena `nodes : List Node`, a node id
being its index in the arena, and `None` as `Option.none`.  `push_back`
allocates one node at the end of the arena, exactly as the Python
constructor call `Node(value, None)` allocates one object.
-/

/-- Source `class Node` with fields `value` and `next`. `next` is a node id or `none`. -/
structure Node where
  value : Int
  next : Option Nat
deriving DecidableEq

/-- Source `class List` with fields `first` and `last`, plus the arena holding the allocated nodes. -/
structure LList where
  nodes : List Node
  first : Option Nat
  last : Option Nat
deriving DecidableEq

/-- Constructor `List()` : `self.first = None; self.last = None`, no allocated nodes. -/
def LList.empty : LList := ⟨[], none, none⟩

/-- Assignment `prev.next = self.last`: replace the `next` field of node `p`, keeping
its value. -/
def updNext (ns : List Node) (p : Nat) (nx : Option Nat) : List Node :=
  match ns, p with
  | [], _ => []
  | n :: t, 0 => ⟨n.value, nx⟩ :: t
  | n :: t, q + 1 => n :: updNext t q nx

/-- Method `List.push_back`: `prev = self.last; self.last = Node(value, None);
if prev is None: self.first = self.last else: prev.next = self.last`. -/
def LList.push_back (l : LList) (v : Int) : LList :=
  let newId := l.nodes.length
  match l.last with
  | none => ⟨l.nodes ++ [⟨v, none⟩], some newId, some newId⟩
  | some p => ⟨updNext l.nodes p (some newId) ++ [⟨v, none⟩], l.first, some newId⟩

/-- The iteration loop of `Iter.__next__`: follow `current` until `None`,
collecting values.  The fuel argument only bounds the traversal so the
function is total; for every list built by `push_back` the chain is finite
and a fuel of `nodes.length` is enough. -/
def iterAux (ns : List Node) : Option Nat → Nat → List Int
  | _, 0 => []
  | none, _ + 1 => []
  | some i, fuel + 1 =>
    match ns.get? i with
    | none => []
    | some nd => nd.value :: iterAux ns nd.next fuel

/-- Evaluation of `list(ll)`: iterate from `self.first`. -/
def LList.toList (l : LList) : List Int := iterAux l.nodes l.first l.nodes.length

/-- Push a whole sequence of values onto the empty list, in order. -/
def mkList (vs : List Int) : LList := vs.foldl LList.push_back LList.empty

/-!  Helper lemmas about the emitter. -/

theorem modeProduct_length (modes : List Mode) (n : Nat) :
    (modeProduct modes n).length = modes.length ^ n := by
  induction n with
  | zero => simp [modeProduct]
  | succ n ih =>
    simp [modeProduct, List.length_flatMap, Function.comp_def, ih, pow_succ,
      Nat.mul_comm]

theorem length_of_mem_modeProduct {modes : List Mode} :
    ∀ {n : Nat} {p : List Mode}, p ∈ modeProduct modes n → p.length = n := by
  intro n
  induction n with
  | zero =>
    intro p hp
    simp [modeProduct] at hp
    simp [hp]
  | succ n ih =>
    intro p hp
    simp only [modeProduct, List.mem_flatMap, List.mem_map] at hp
    obtain ⟨m, _, q, hq, rfl⟩ := hp
    simp [ih hq]

theorem mem_emitSigsWith {maxA : Nat} {modes : List Mode} {s : Nat × List Mode}
    (h : s ∈ emitSigsWith maxA modes) : s.2.length = s.1 ∧ s.1 ≤ maxA := by
  simp only [emitSigsWith, List.mem_flatMap, List.mem_map, List.mem_range] at h
  obtain ⟨r, hr, p, hp, rfl⟩ := h
  exact ⟨length_of_mem_modeProduct hp, Nat.lt_succ_iff.mp hr⟩

theorem slotGroups_length (vars : List String) (p : List Mode) :
    (slotGroups vars p).length = min vars.length p.length := by
  simp [slotGroups, List.enum_length, List.length_zip]

/-- Digit value of each mode, in the order of the pool `[Owned, Ref, Mut]`
handed to `itertools.product`. -/
def modeVal : Mode → Nat
  | .Owned => 0
  | .Ref => 1
  | .Mut => 2

/-- A mode tuple read as a base-3 numeral, most significant digit first. -/
def sigNum (p : List Mode) : Nat := p.foldl (fun a m => 3 * a + modeVal m) 0

theorem sigNum_foldl_acc (p : List Mode) :
    ∀ acc : Nat,
      p.foldl (fun a m => 3 * a + modeVal m) acc = acc * 3 ^ p.length + sigNum p := by
  induction p with
  | nil =>
    intro acc
    simp [sigNum]
  | cons m t ih =>
    intro acc
    have h2 : sigNum (m :: t) = modeVal m * 3 ^ t.length + sigNum t := by
      rw [sigNum, List.foldl_cons]
      have : 3 * 0 + modeVal m = modeVal m := by omega
      rw [this, ih (modeVal m)]
    rw [List.foldl_cons, ih (3 * acc + modeVal m), h2, List.length_cons, pow_succ]
    ring

theorem modeProduct_map_foldl (n : Nat) :
    ∀ acc : Nat,
      (modeProduct runeModes n).map
          (fun p => p.foldl (fun a m => 3 * a + modeVal m) acc) =
        (List.range (3 ^ n)).map (fun i => acc * 3 ^ n + i) := by
  induction n with
  | zero =>
    intro acc
    rw [show List.range (3 ^ 0) = [0] from rfl]
    simp [modeProduct]
  | succ n ih =>
    intro acc
    have hsplit : (3 : Nat) ^ (n + 1) = 3 ^ n + (3 ^ n + 3 ^ n) := by ring
    have hstep : modeProduct runeModes (n + 1) =
        ((modeProduct runeModes n).map fun p => Mode.Owned :: p) ++
          (((modeProduct runeModes n).map fun p => Mode.Ref :: p) ++
            ((modeProduct runeModes n).map fun p => Mode.Mut :: p)) := by
      simp [modeProduct, runeModes]
    have e : ∀ m : Mode,
        ((fun p : List Mode => p.foldl (fun a x => 3 * a + modeVal x) acc) ∘
            fun p => m :: p) =
          fun p => p.foldl (fun a x => 3 * a + modeVal x) (3 * acc + modeVal m) := by
      intro m
      funext p
      simp [Function.comp_def, List.foldl_cons]
    rw [hstep, List.map_append, List.map_append, List.map_map, List.map_map,
      List.map_map, e Mode.Owned, e Mode.Ref, e Mode.Mut, ih, ih, ih, hsplit,
      List.range_add, List.range_add]
    simp only [List.map_append, List.map_map]
    congr 1
    · refine List.map_congr_left fun i _ => ?_
      simp only [modeVal]
      ring
    congr 1
    · refine List.map_congr_left fun i _ => ?_
      simp only [Function.comp_def, modeVal]
      ring
    · refine List.map_congr_left fun i _ => ?_
      simp only [Function.comp_def, modeVal]
      ring

/-!  Claim theorems. -/

/-- Claim C1: for every arity `n` from 0 to `MAX = len(vars) = 5` the emitter
produces exactly `3 ^ n` emission lines of that arity, and the total number
of emitted signatures is the sum over arity of `3 ^ arity`, which is 364. -/
theorem c1_emission_counts :
    (∀ n : Nat, n ≤ runeVars.length →
      (runeSigs.filter (fun s => s.1 == n)).length = 3 ^ n) ∧
    (∀ r : Nat, (modeProduct runeModes r).length = 3 ^ r) ∧
    runeSigs.length = ((List.range (runeVars.length + 1)).map (3 ^ ·)).sum ∧
    runeSigs.length = 364 := by
  refine ⟨fun n hn => ?_, fun r => ?_, by decide, by decide⟩
  · have hn5 : n ≤ 5 := hn
    interval_cases n <;> decide
  · simpa using modeProduct_length runeModes r

/-- Witness for C1 at arity 2: the emitter produces nine arity-2 lines. -/
theorem c1_emission_counts_witness :
    (runeSigs.filter (fun s => s.1 == 2)).length = 3 ^ 2 :=
  c1_emission_counts.1 2 (by decide)

/-- Claim C3: emission order is arity ascending from 0 to `MAX`, and within
each arity the mode assignments appear ordered as base-3 numerals with the
most significant digit at slot 0 and digit order `Owned < Ref < Mut`: the
key sequence `(arity, numeral)` of the emitted signatures is exactly
`(0,0), (1,0), (1,1), (1,2), (2,0), ..., (5, 3^5 - 1)`. -/
theorem c3_emission_order :
    runeSigs.map (fun s => (s.1, sigNum s.2)) =
      (List.range (runeVars.length + 1)).flatMap
        (fun r => (List.range (3 ^ r)).map fun i => (r, i)) ∧
    (∀ (m : Mode) (p : List Mode),
      sigNum (m :: p) = modeVal m * 3 ^ p.length + sigNum p) ∧
    modeVal Mode.Owned = 0 ∧ modeVal Mode.Ref = 1 ∧ modeVal Mode.Mut = 2 := by
  refine ⟨?_, fun m p => ?_, rfl, rfl, rfl⟩
  · have key : ∀ r : Nat,
        ((modeProduct runeModes r).map fun p => (r, sigNum p)) =
          (List.range (3 ^ r)).map fun i => (r, i) := by
      intro r
      have h0 := modeProduct_map_foldl r 0
      calc (modeProduct runeModes r).map (fun p => (r, sigNum p))
          = ((modeProduct runeModes r).map
              (fun p => p.foldl (fun a m => 3 * a + modeVal m) 0)).map
              (fun i => (r, i)) := by
            rw [List.map_map]
            rfl
        _ = ((List.range (3 ^ r)).map (fun i => 0 * 3 ^ r + i)).map
              (fun i => (r, i)) := by rw [h0]
        _ = (List.range (3 ^ r)).map (fun i => (r, i)) := by simp
    simp only [runeSigs, emitSigsWith, List.map_flatMap, List.map_map,
      Function.comp_def]
    simp only [key]
  · rw [sigNum, List.foldl_cons]
    have h1 : 3 * 0 + modeVal m = modeVal m := by omega
    rw [h1, sigNum_foldl_acc p (modeVal m)]

/-- Claim C4: the emitted bytes are a pure function of the configuration
(slot names, maximum arity, guard threshold, mode definitions): identical
configurations give byte-identical output. -/
theorem c4_determinism (c c' : Config) (h : c = c') :
    fullOutput c = fullOutput c' := by
  rw [h]

/-- Witness for C4 at the script configuration. -/
theorem c4_determinism_witness :
    fullOutput runeConfig = fullOutput runeConfig :=
  c4_determinism runeConfig runeConfig rfl

/-- Claim C7: the emitter produces exactly one arity-0 signature, its slot
group list is empty, and its rendered line holds only the literal arity 0. -/
theorem c7_arity_zero :
    runeSigs.filter (fun s => s.1 == 0) = [(0, ([] : List Mode))] ∧
    slotGroups runeVars [] = [] ∧
    callLine runeVars (0, []) = "        $call!(0);" := by
  refine ⟨by decide, rfl, by decide⟩

/-- Counterexample to claim C2: running the emitter loop with `MAX = 3` over
the two slot names `A, B` does not fail — it writes a complete output
(3 header lines, 40 signature lines, 2 closing lines), emits a line whose
arity literal is 3, and silently truncates that line's slot groups to the
2 available names. -/
theorem c2_counterexample :
    (3, [Mode.Owned, Mode.Owned, Mode.Owned]) ∈ emitSigsWith 3 runeModes ∧
    (slotGroups ["A", "B"] [Mode.Owned, Mode.Owned, Mode.Owned]).length = 2 ∧
    (slotGroups ["A", "B"] [Mode.Owned, Mode.Owned, Mode.Owned]).map
        SlotGroup.var = ["A", "B"] ∧
    (outputLines ["A", "B"] 3 4 runeModes).length = 3 + 40 + 2 ∧
    callLine ["A", "B"] (3, [Mode.Owned, Mode.Owned, Mode.Owned]) =
      "        $call!(3, \x7bA, a, A, 0, \x7b\x7d, \x7bFromValue\x7d, from_value\x7d, " ++
        "\x7bB, b, B, 1, \x7b\x7d, \x7bFromValue\x7d, from_value\x7d);" := by
  refine ⟨by decide, by decide, by decide, by decide, by decide⟩

/-- Claim C2 amended: the emitter performs no arity-versus-slot validation
and has no failure path; when the maximum arity exceeds the number of slot
names, `zip` silently truncates each line's slot groups to the available
names.  In the script itself the maximum arity is defined as `len(vars)`,
so the excess can never occur there. -/
theorem c2_amended_truncation :
    (∀ (vars : List String) (p : List Mode),
      (slotGroups vars p).length = min vars.length p.length) ∧
    (∀ (maxA : Nat) (s : Nat × List Mode),
      s ∈ emitSigsWith maxA runeModes → s.2.length = s.1 ∧ s.1 ≤ maxA) ∧
    runeConfig.maxA = runeConfig.vars.length := by
  exact ⟨fun vars p => slotGroups_length vars p,
    fun maxA s h => mem_emitSigsWith h, rfl⟩

/-- Witness for the amended C2 at the truncated configuration: an arity-3
signature over two slot names keeps only `min 2 3 = 2` groups. -/
theorem c2_amended_truncation_witness :
    (slotGroups ["A", "B"] [Mode.Owned, Mode.Owned, Mode.Owned]).length =
        min 2 3 ∧
    (3, [Mode.Owned, Mode.Owned, Mode.Owned]).2.length =
        (3, [Mode.Owned, Mode.Owned, Mode.Owned]).1 ∧
    (3, [Mode.Owned, Mode.Owned, Mode.Owned]).1 ≤ 3 :=
  ⟨by
    have h := c2_amended_truncation.1 ["A", "B"] [Mode.Owned, Mode.Owned, Mode.Owned]
    simpa using h,
   c2_amended_truncation.2.1 3 (3, [Mode.Owned, Mode.Owned, Mode.Owned]) (by decide)⟩

/-- Claim C6: an emitted signature's block starts with the guard line
`#[cfg(not(test))]` exactly when its arity is at least the threshold (4 in
the script); below the threshold the block is the bare call line. -/
theorem c6_cfg_guard (s : Nat × List Mode) (_hs : s ∈ runeSigs) :
    (4 ≤ s.1 → emitOne runeVars 4 s = [guardLine, callLine runeVars s]) ∧
    (s.1 < 4 → emitOne runeVars 4 s = [callLine runeVars s]) := by
  constructor
  · intro h
    simp [emitOne, if_pos h]
  · intro h
    simp [emitOne, if_neg (Nat.not_le.mpr h)]

/-- Witness for C6: a concrete arity-4 line is guarded and a concrete
arity-2 line is not. -/
theorem c6_cfg_guard_witness :
    emitOne runeVars 4 (4, [Mode.Owned, Mode.Owned, Mode.Owned, Mode.Owned]) =
      [guardLine, callLine runeVars (4, [Mode.Owned, Mode.Owned, Mode.Owned, Mode.Owned])] ∧
    emitOne runeVars 4 (2, [Mode.Ref, Mode.Mut]) =
      [callLine runeVars (2, [Mode.Ref, Mode.Mut])] :=
  ⟨(c6_cfg_guard (4, [Mode.Owned, Mode.Owned, Mode.Owned, Mode.Owned]) (by decide)).1
      (by decide),
   (c6_cfg_guard (2, [Mode.Ref, Mode.Mut]) (by decide)).2 (by decide)⟩

/-- Claim C8: in every emitted line of arity `n` the ordinals rendered into
the slot groups are exactly `0, 1, ..., n-1` in order, and the slot names
are the first `n` names of the fixed alphabet in order. -/
theorem c8_ordinals (s : Nat × List Mode) (hs : s ∈ runeSigs) :
    (slotGroups runeVars s.2).map SlotGroup.idx = List.range s.1 ∧
    (slotGroups runeVars s.2).map SlotGroup.var = runeVars.take s.1 := by
  obtain ⟨hlen, hle⟩ := mem_emitSigsWith hs
  have hmin : min runeVars.length s.2.length = s.1 := by
    rw [hlen]
    exact Nat.min_eq_right hle
  constructor
  · apply List.ext_getElem
    · simp [slotGroups, List.enum_length, List.length_zip, hmin]
    · intro i h1 h2
      simp [slotGroups, List.getElem_enum]
  · apply List.ext_getElem
    · simp [slotGroups, List.enum_length, List.length_zip, hmin, hlen] <;> omega
    · intro i h1 h2
      simp [slotGroups, List.getElem_enum, List.getElem_zip]

/-- Claim C5: for every slot group of every emitted line, the group assigned
the `Mut` mode renders modifier `&mut`, type `Mut<slot>`, and a capability
list containing `UnsafeToMut`; the `Ref` mode renders `&`, `Ref<slot>`, and
`UnsafeToRef`; the `Owned` mode renders the empty modifier, the bare slot
name, and `FromValue`; and the capability list is joined with `" + "`. -/
theorem c5_mode_rendering (s : Nat × List Mode) (_hs : s ∈ runeSigs) (i : Nat)
    (g : SlotGroup) (hg : (slotGroups runeVars s.2).get? i = some g)
    (m : Mode) (hm : s.2.get? i = some m) :
    g.idx = i ∧ runeVars.get? i = some g.var ∧ g.varLower = strLower g.var ∧
    g.out = m.apply g.var ∧
    (m = Mode.Mut → g.out.mods = "&mut" ∧ g.out.ty = "Mut<" ++ g.var ++ ">" ∧
      "UnsafeToMut" ∈ g.out.traits ∧
      String.intercalate " + " g.out.traits = "?Sized + UnsafeToMut") ∧
    (m = Mode.Ref → g.out.mods = "&" ∧ g.out.ty = "Ref<" ++ g.var ++ ">" ∧
      "UnsafeToRef" ∈ g.out.traits ∧
      String.intercalate " + " g.out.traits = "?Sized + UnsafeToRef") ∧
    (m = Mode.Owned → g.out.mods = "" ∧ g.out.ty = g.var ∧
      "FromValue" ∈ g.out.traits ∧
      String.intercalate " + " g.out.traits = "FromValue") := by
  obtain ⟨hi, hgv⟩ := List.get?_eq_some.mp hg
  obtain ⟨him, hmv⟩ := List.get?_eq_some.mp hm
  have hiv : i < runeVars.length := by
    have hsl := slotGroups_length runeVars s.2
    omega
  have hgc : g = ⟨runeVars.get ⟨i, hiv⟩, strLower (runeVars.get ⟨i, hiv⟩),
      (s.2.get ⟨i, him⟩).apply (runeVars.get ⟨i, hiv⟩), i⟩ := by
    rw [← hgv]
    simp [slotGroups, List.getElem_enum, List.getElem_zip]
  subst hgc
  subst hmv
  refine ⟨rfl, by rw [List.get?_eq_get hiv], rfl, rfl, ?_, ?_, ?_⟩ <;>
    · intro hmm
      rw [hmm]
      cases hv : runeVars.get ⟨i, hiv⟩ <;> simp [Mode.apply] <;> decide

/-- Witness for C5 at the emitted arity-1 line with mode `Mut` on slot `A`:
the group rendered there is
`(var A, binding a, type Mut<A>, ordinal 0, modifier &mut, capabilities ?Sized + UnsafeToMut, coercion unsafe_to_mut)`. -/
theorem c5_mode_rendering_witness :
    SlotGroup.idx ⟨"A", "a", ⟨"Mut<A>", "&mut", ["?Sized", "UnsafeToMut"], "unsafe_to_mut"⟩, 0⟩ = 0 ∧
    runeVars.get? 0 =
      some (SlotGroup.var ⟨"A", "a", ⟨"Mut<A>", "&mut", ["?Sized", "UnsafeToMut"], "unsafe_to_mut"⟩, 0⟩) ∧
    "a" = strLower "A" ∧
    (⟨"Mut<A>", "&mut", ["?Sized", "UnsafeToMut"], "unsafe_to_mut"⟩ : ModeOut) =
      Mode.Mut.apply "A" ∧
    (Mode.Mut = Mode.Mut → "&mut" = "&mut" ∧ "Mut<A>" = "Mut<" ++ "A" ++ ">" ∧
      "UnsafeToMut" ∈ ["?Sized", "UnsafeToMut"] ∧
      String.intercalate " + " ["?Sized", "UnsafeToMut"] = "?Sized + UnsafeToMut") ∧
    (Mode.Mut = Mode.Ref → "&mut" = "&" ∧ "Mut<A>" = "Ref<" ++ "A" ++ ">" ∧
      "UnsafeToRef" ∈ ["?Sized", "UnsafeToMut"] ∧
      String.intercalate " + " ["?Sized", "UnsafeToMut"] = "?Sized + UnsafeToRef") ∧
    (Mode.Mut = Mode.Owned → "&mut" = "" ∧ "Mut<A>" = "A" ∧
      "FromValue" ∈ ["?Sized", "UnsafeToMut"] ∧
      String.intercalate " + " ["?Sized", "UnsafeToMut"] = "FromValue") :=
  c5_mode_rendering (1, [Mode.Mut]) (by decide) 0
    ⟨"A", "a", ⟨"Mut<A>", "&mut", ["?Sized", "UnsafeToMut"], "unsafe_to_mut"⟩, 0⟩
    (by decide) Mode.Mut (by decide)

/-- Witness for C8 at the emitted signature of arity 2 with modes
`(Ref, Mut)`. -/
theorem c8_ordinals_witness :
    (slotGroups runeVars [Mode.Ref, Mode.Mut]).map SlotGroup.idx = List.range 2 ∧
    (slotGroups runeVars [Mode.Ref, Mode.Mut]).map SlotGroup.var = runeVars.take 2 :=
  c8_ordinals (2, [Mode.Ref, Mode.Mut]) (by decide)

/-!  Helper lemmas about the linked list. -/

/-- The arena produced by pushing `vs` in order: node `i` holds `vs[i]` and
points to node `i + 1`, except the final node which ends the chain. -/
def expNodes (vs : List Int) : List Node :=
  vs.enum.map fun q => ⟨q.2, if q.1 + 1 < vs.length then some (q.1 + 1) else none⟩

theorem expNodes_length (vs : List Int) : (expNodes vs).length = vs.length := by
  simp [expNodes, List.enum_length]

theorem expNodes_get (vs : List Int) (i : Nat) (h : i < (expNodes vs).length)
    (h' : i < vs.length) :
    (expNodes vs).get ⟨i, h⟩ =
      ⟨vs.get ⟨i, h'⟩, if i + 1 < vs.length then some (i + 1) else none⟩ := by
  simp [expNodes, List.getElem_enum]

theorem updNext_length (ns : List Node) : ∀ (p : Nat) (nx : Option Nat),
    (updNext ns p nx).length = ns.length := by
  induction ns with
  | nil => intro p nx; rfl
  | cons n t ih =>
    intro p nx
    cases p with
    | zero => simp [updNext]
    | succ q => simp [updNext, ih q nx]

theorem updNext_get (ns : List Node) : ∀ (p : Nat) (nx : Option Nat) (i : Nat)
    (h : i < ns.length) (h' : i < (updNext ns p nx).length),
    (updNext ns p nx).get ⟨i, h'⟩ =
      if i = p then ⟨(ns.get ⟨i, h⟩).value, nx⟩ else ns.get ⟨i, h⟩ := by
  induction ns with
  | nil => intro p nx i h h'; cases h
  | cons n t ih =>
    intro p nx i h h'
    cases p with
    | zero =>
      cases i with
      | zero => simp [updNext]
      | succ j => simp [updNext]
    | succ q =>
      cases i with
      | zero => simp [updNext]
      | succ j =>
        have hj : j < t.length := by simpa using h
        have hj' : j < (updNext t q nx).length := by
          rw [updNext_length]; exact hj
        have hq := ih q nx j hj hj'
        simp only [List.get_eq_getElem] at hq
        simp [updNext, hq]

theorem mkList_push (vs : List Int) (v : Int) :
    mkList (vs ++ [v]) = (mkList vs).push_back v := by
  simp [mkList, List.foldl_append]

theorem expNodes_append (vs : List Int) (v : Int) (k : Nat)
    (hv : vs.length = k + 1) :
    updNext (expNodes vs) k (some (k + 1)) ++ [⟨v, none⟩] = expNodes (vs ++ [v]) := by
  have hlen : (expNodes vs).length = k + 1 := by rw [expNodes_length, hv]
  apply List.ext_getElem
  · simp [updNext_length, expNodes_length, hv]
  · intro i h1 h2
    have hlenR : (expNodes (vs ++ [v])).length = k + 2 := by
      simp [expNodes_length, hv]
    have hi2 : i < k + 2 := by omega
    have hivv : i < (vs ++ [v]).length := by simp [hv]; omega
    have hgr : (expNodes (vs ++ [v]))[i] =
        ⟨(vs ++ [v]).get ⟨i, hivv⟩,
          if i + 1 < (vs ++ [v]).length then some (i + 1) else none⟩ := by
      have h3 : i < (expNodes (vs ++ [v])).length := by omega
      have := expNodes_get (vs ++ [v]) i h3 hivv
      simpa [List.get_eq_getElem] using this
    rw [hgr]
    by_cases hik : i < k + 1
    · have hupd : i < (updNext (expNodes vs) k (some (k + 1))).length := by
        rw [updNext_length, hlen]; exact hik
      rw [List.getElem_append_left hupd]
      have hie : i < (expNodes vs).length := by omega
      have hiv : i < vs.length := by omega
      have hgu := updNext_get (expNodes vs) k (some (k + 1)) i hie hupd
      simp only [List.get_eq_getElem] at hgu
      rw [hgu]
      have hge := expNodes_get vs i hie hiv
      simp only [List.get_eq_getElem] at hge
      have hvv : (vs ++ [v]).get ⟨i, hivv⟩ = vs[i] := by
        simp [List.get_eq_getElem, List.getElem_append_left hiv]
      rw [hvv]
      by_cases hk : i = k
      · subst hk
        simp [hge, hv]
      · rw [if_neg hk, hge]
        have hlt : i + 1 < vs.length := by omega
        have hlt2 : i + 1 < (vs ++ [v]).length := by simp [hv]; omega
        simp [hlt, hlt2]
        omega
    · have hieq : i = k + 1 := by omega
      subst hieq
      have hge2 : k + 1 ≥ (updNext (expNodes vs) k (some (k + 1))).length := by
        rw [updNext_length, hlen]
      rw [List.getElem_append_right hge2]
      have hvv2 : (vs ++ [v]).get ⟨k + 1, hivv⟩ = v := by
        simp [List.get_eq_getElem, hv, List.getElem_append_right, Nat.le_refl]
      rw [hvv2]
      have hnx : ¬ (k + 1 + 1 < (vs ++ [v]).length) := by simp [hv]
      simp [updNext_length, hlen, hnx]
      rw [if_neg (show ¬ k + 1 < vs.length by omega)]

theorem mkList_spec (vs : List Int) :
    mkList vs = ⟨expNodes vs,
      if vs.length = 0 then none else some 0,
      if vs.length = 0 then none else some (vs.length - 1)⟩ := by
  induction vs using List.reverseRecOn with
  | nil => rfl
  | append_singleton vs v ih =>
    rw [mkList_push, ih]
    cases hv : vs.length with
    | zero =>
      have hnil : vs = [] := List.length_eq_zero.mp hv
      subst hnil
      rfl
    | succ k =>
      have hne : ¬ (vs.length = 0) := by omega
      have hne2 : ¬ ((vs ++ [v]).length = 0) := by simp
      simp only [hne, if_neg, ite_false, LList.push_back, hne2]
      have hnewId : (expNodes vs).length = k + 1 := by rw [expNodes_length, hv]
      simp only [hnewId]
      have happ := expNodes_append vs v k hv
      have hsub : vs.length - 1 = k := by omega
      have hsub2 : (vs ++ [v]).length - 1 = k + 1 := by simp [hv]
      simp [hsub, hsub2, happ]
      omega

theorem iterAux_expNodes (vs : List Int) :
    ∀ (fuel i : Nat), vs.length - i ≤ fuel → i ≤ vs.length →
      iterAux (expNodes vs) (some i) fuel = vs.drop i := by
  intro fuel
  induction fuel with
  | zero =>
    intro i hf hi
    have : i = vs.length := by omega
    subst this
    simp [iterAux, List.drop_length]
  | succ fuel ih =>
    intro i hf hi
    by_cases hil : i < vs.length
    · have hie : i < (expNodes vs).length := by rw [expNodes_length]; exact hil
      have hget : (expNodes vs).get? i = some ((expNodes vs).get ⟨i, hie⟩) :=
        List.get?_eq_get hie
      have hnode := expNodes_get vs i hie hil
      rw [iterAux, hget, hnode]
      by_cases hnx : i + 1 < vs.length
      · rw [if_pos hnx]
        show vs.get ⟨i, hil⟩ :: iterAux (expNodes vs) (some (i + 1)) fuel = vs.drop i
        have hrec := ih (i + 1) (by omega) (by omega)
        rw [hrec, List.get_eq_getElem]
        exact List.getElem_cons_drop vs i hil
      · rw [if_neg hnx]
        show vs.get ⟨i, hil⟩ :: iterAux (expNodes vs) none fuel = vs.drop i
        have hdrop : vs.drop i = [vs.get ⟨i, hil⟩] := by
          rw [List.get_eq_getElem, List.drop_eq_getElem_cons hil]
          have : vs.drop (i + 1) = [] := List.drop_eq_nil_of_le (by omega)
          rw [this]
        rw [hdrop]
        cases fuel with
        | zero => rfl
        | succ f => rfl
    · have : i = vs.length := by omega
      subst this
      have hnone : (expNodes vs).get? vs.length = none := by
        rw [List.get?_eq_none]
        rw [expNodes_length]
      rw [iterAux, hnone]
      simp [List.drop_length]

/-- Claim C9: FIFO order.  Pushing any finite sequence of values onto a
fresh `List()` and then iterating yields exactly that sequence, in push
order, and then stops. -/
theorem c9_fifo_order (vs : List Int) : (mkList vs).toList = vs := by
  rw [mkList_spec]
  show iterAux (expNodes vs) _ (expNodes vs).length = vs
  cases hv : vs.length with
  | zero =>
    have hnil : vs = [] := List.length_eq_zero.mp hv
    subst hnil
    rfl
  | succ k =>
    have hne : ¬ (vs.length = 0) := by omega
    simp only [hne, ite_false, if_neg]
    rw [expNodes_length]
    have := iterAux_expNodes vs vs.length 0 (by omega) (by omega)
    simpa using this

/-- Reachability along `next` pointers inside an arena of nodes. -/
inductive Reach (ns : List Node) : Nat → Nat → Prop where
  | refl (i : Nat) : Reach ns i i
  | step (i j k : Nat) (nd : Node) (h1 : ns.get? i = some nd)
      (h2 : nd.next = some j) (h3 : Reach ns j k) : Reach ns i k

/-- The structural invariant of `List`: `first` and `last` are `None`
together, and when set, `last` names an allocated node whose `next` is
`None` and which is reachable from `first` along the chain. -/
def ListInv (l : LList) : Prop :=
  (l.first = none ↔ l.last = none) ∧
  ∀ j, l.last = some j →
    ∃ nd : Node, l.nodes.get? j = some nd ∧ nd.next = none ∧
      ∃ i, l.first = some i ∧ Reach l.nodes i j

theorem updNext_map_value (ns : List Node) : ∀ (p : Nat) (nx : Option Nat),
    (updNext ns p nx).map Node.value = ns.map Node.value := by
  induction ns with
  | nil => intro p nx; rfl
  | cons n t ih =>
    intro p nx
    cases p with
    | zero => simp [updNext]
    | succ q => simp [updNext, ih q nx]

theorem reach_expNodes (vs : List Int) (k : Nat) (hk : k < vs.length) :
    ∀ (d i : Nat), i + d = k → Reach (expNodes vs) i k := by
  intro d
  induction d with
  | zero =>
    intro i hi
    have : i = k := by omega
    subst this
    exact Reach.refl i
  | succ d ih =>
    intro i hi
    have hil : i < vs.length := by omega
    have hie : i < (expNodes vs).length := by rw [expNodes_length]; exact hil
    have hnx : i + 1 < vs.length := by omega
    refine Reach.step i (i + 1) k ((expNodes vs).get ⟨i, hie⟩)
      (List.get?_eq_get hie) ?_ (ih (i + 1) (by omega))
    rw [expNodes_get vs i hie hil]
    simp [hnx]

/-- Claim C10: structural invariant of `List`, holding for every list built
by `push_back` from `List()`: `first` is `None` iff `last` is `None`; when
set, `last` is an allocated terminal node (`next = None`) reachable from
`first`; `push_back` commutes with recording the pushed value; and on any
state `push_back` keeps every stored value, appends exactly one node
holding the new value at the tail, and repoints `last` at it. -/
theorem c10_invariant (vs : List Int) (v : Int) :
    ListInv (mkList vs) ∧
    (mkList vs).push_back v = mkList (vs ++ [v]) ∧
    (∀ l : LList,
      (l.push_back v).nodes.map Node.value = l.nodes.map Node.value ++ [v] ∧
      (l.push_back v).nodes.length = l.nodes.length + 1 ∧
      (l.push_back v).last = some l.nodes.length) := by
  refine ⟨?_, (mkList_push vs v).symm, fun l => ?_⟩
  · rw [mkList_spec]
    by_cases hv : vs.length = 0
    · constructor
      · simp [hv]
      · intro j hj
        simp [hv] at hj
    · constructor
      · simp [hv]
      · intro j hj
        simp only [if_neg hv] at hj ⊢
        have hj' : vs.length - 1 = j := by simpa using hj
        subst hj'
        have hkl : vs.length - 1 < vs.length := by omega
        have hke : vs.length - 1 < (expNodes vs).length := by
          rw [expNodes_length]; exact hkl
        refine ⟨(expNodes vs).get ⟨vs.length - 1, hke⟩, List.get?_eq_get hke,
          ?_, 0, rfl, ?_⟩
        · rw [expNodes_get vs (vs.length - 1) hke hkl]
          rw [if_neg (show ¬ (vs.length - 1 + 1 < vs.length) by omega)]
        · exact reach_expNodes vs (vs.length - 1) hkl (vs.length - 1) 0 (by omega)
  · cases hl : l.last with
    | none =>
      refine ⟨?_, ?_, ?_⟩ <;> simp [LList.push_back, hl]
    | some p =>
      refine ⟨?_, ?_, ?_⟩ <;>
        simp [LList.push_back, hl, updNext_map_value, updNext_length]
